import Mathlib

/-!
Verification development for a federated-learning round simulator
(client partitioning, DP sanitization, aggregation kernels, server-side
Adam, SCAFFOLD control variates, k-means clustering, round orchestration).

Numeric code is modelled over exact arithmetic: `ℚ` where the source uses
only field operations, `ℝ` where square roots or transcendental functions
occur.  Float32 rounding is not modelled.
-/

namespace FL

/-- One rational vector per parameter group (`Weights = Float32Array[]` in
`types.ts`, modelled over `ℚ`). -/
abbrev Weights := List (List ℚ)

/-- `zerosLike` from `algorithms.ts`: a zero-filled value of the same shape. -/
def zerosLike (w : Weights) : Weights := w.map (fun v => v.map (fun _ => 0))

/-- Inner loop of `aggregateDeltas`: `b[i] += w * d[i]` over one group. -/
def addScaledVec (w : ℚ) (b d : List ℚ) : List ℚ :=
  List.zipWith (fun x y => x + w * y) b d

/-- `base += w * delta` over all groups (the nested loops of `aggregateDeltas`).
The source assumes equal shapes (data-model invariant); on mismatched shapes
it would produce NaN, which is outside the modelled domain. -/
def addScaledInto (b d : Weights) (w : ℚ) : Weights :=
  List.zipWith (addScaledVec w) b d

/-- One iteration of the `for (const {delta, weight} of deltas)` loop in
`aggregateDeltas`: accumulate the scaled delta and the total weight. -/
def aggStep (weighted : Bool) (acc : Weights × ℚ) (p : Weights × ℚ) : Weights × ℚ :=
  let w := if weighted then p.2 else 1
  (addScaledInto acc.1 p.1 w, acc.2 + w)

/-- `aggregateDeltas` from `algorithms.ts`.  The source reads `deltas[0].delta`
unconditionally, so an empty batch is a caller error there; we return `[]`
in that case. -/
def aggregateDeltas (deltas : List (Weights × ℚ)) (weighted : Bool) : Weights :=
  match deltas with
  | [] => []
  | d0 :: _ =>
    let acc := deltas.foldl (aggStep weighted) (zerosLike d0.1, 0)
    acc.1.map (fun g => g.map (fun x => x / acc.2))

/-- Reading `w[li][i]`, with default 0 out of range. -/
def elemW (w : Weights) (li i : ℕ) : ℚ := (w.getD li []).getD i 0

/-- The shape of a Weights value: its list of group lengths. -/
def shapeW (w : Weights) : List ℕ := w.map List.length

/-- The per-delta weight used by the aggregation fold. -/
def wgt (weighted : Bool) (p : Weights × ℚ) : ℚ := if weighted then p.2 else 1

theorem getD_addScaledVec (w : ℚ) :
    ∀ (b d : List ℚ), b.length = d.length → ∀ i,
      (addScaledVec w b d).getD i 0 = b.getD i 0 + w * d.getD i 0 := by
  intro b
  induction b with
  | nil =>
    intro d hd i
    cases d with
    | nil => simp [addScaledVec]
    | cons y ys => simp at hd
  | cons x xs ih =>
    intro d hd i
    cases d with
    | nil => simp at hd
    | cons y ys =>
      cases i with
      | zero => simp [addScaledVec]
      | succ n =>
        simp only [addScaledVec, List.zipWith_cons_cons, List.getD_cons_succ]
        exact ih ys (by simpa using hd) n

theorem length_addScaledVec (w : ℚ) (b d : List ℚ) :
    (addScaledVec w b d).length = min b.length d.length := by
  simp [addScaledVec]

theorem shapeW_addScaledInto (w : ℚ) :
    ∀ (b d : Weights), shapeW b = shapeW d →
      shapeW (addScaledInto b d w) = shapeW b := by
  intro b
  induction b with
  | nil => intro d _; simp [addScaledInto, shapeW]
  | cons g gs ih =>
    intro d hd
    cases d with
    | nil => simp [shapeW] at hd
    | cons g' gs' =>
      simp only [shapeW, List.map_cons, List.cons.injEq] at hd
      simp only [addScaledInto, List.zipWith_cons_cons, shapeW, List.map_cons,
        List.cons.injEq]
      constructor
      · rw [length_addScaledVec, hd.1, min_self]
      · exact ih gs' hd.2

theorem elemW_addScaledInto (w : ℚ) :
    ∀ (b d : Weights), shapeW b = shapeW d → ∀ li i,
      elemW (addScaledInto b d w) li i = elemW b li i + w * elemW d li i := by
  intro b
  induction b with
  | nil =>
    intro d hd li i
    cases d with
    | nil => simp [addScaledInto, elemW]
    | cons g' gs' => simp [shapeW] at hd
  | cons g gs ih =>
    intro d hd li i
    cases d with
    | nil => simp [shapeW] at hd
    | cons g' gs' =>
      simp only [shapeW, List.map_cons, List.cons.injEq] at hd
      cases li with
      | zero =>
        simp only [addScaledInto, List.zipWith_cons_cons, elemW, List.getD_cons_zero]
        exact getD_addScaledVec w g g' hd.1 i
      | succ n =>
        simp only [addScaledInto, List.zipWith_cons_cons, elemW, List.getD_cons_succ]
        exact ih gs' hd.2 n i

theorem shapeW_zerosLike (w : Weights) : shapeW (zerosLike w) = shapeW w := by
  simp [zerosLike, shapeW]

theorem getD_map_zero : ∀ (g : List ℚ) (i : ℕ),
    (g.map (fun (_ : ℚ) => (0:ℚ))).getD i 0 = 0 := by
  intro g
  induction g with
  | nil => intro i; simp
  | cons x xs ih =>
    intro i
    cases i with
    | zero => simp
    | succ n =>
      simp only [List.map_cons, List.getD_cons_succ]
      exact ih n

theorem elemW_zerosLike (w : Weights) (li i : ℕ) : elemW (zerosLike w) li i = 0 := by
  induction w generalizing li with
  | nil => simp [zerosLike, elemW]
  | cons g gs ih =>
    cases li with
    | zero => simp [zerosLike, elemW, getD_map_zero]
    | succ n =>
      simp only [zerosLike, List.map_cons, elemW, List.getD_cons_succ]
      exact ih n

/-- Characterization of the accumulation fold of `aggregateDeltas`. -/
theorem agg_foldl (weighted : Bool) :
    ∀ (l : List (Weights × ℚ)) (acc : Weights × ℚ) (s : List ℕ),
      shapeW acc.1 = s → (∀ p ∈ l, shapeW p.1 = s) →
      shapeW (l.foldl (aggStep weighted) acc).1 = s ∧
      (l.foldl (aggStep weighted) acc).2 = acc.2 + (l.map (wgt weighted)).sum ∧
      ∀ li i, elemW (l.foldl (aggStep weighted) acc).1 li i
        = elemW acc.1 li i + (l.map (fun p => wgt weighted p * elemW p.1 li i)).sum := by
  intro l
  induction l with
  | nil => intro acc s hacc _; simp [hacc]
  | cons p ps ih =>
    intro acc s hacc hall
    have hp : shapeW p.1 = s := hall p (List.mem_cons_self p ps)
    have hshape : shapeW (aggStep weighted acc p).1 = s := by
      simpa [aggStep] using
        (shapeW_addScaledInto _ acc.1 p.1 (by rw [hacc, hp])).trans hacc
    have hrest : ∀ q ∈ ps, shapeW q.1 = s := fun q hq => hall q (List.mem_cons_of_mem p hq)
    obtain ⟨h1, h2, h3⟩ := ih (aggStep weighted acc p) s hshape hrest
    refine ⟨h1, ?_, ?_⟩
    · rw [List.foldl_cons] at *
      rw [h2]
      simp [aggStep, wgt]
      ring
    · intro li i
      rw [List.foldl_cons] at *
      rw [h3 li i]
      have := elemW_addScaledInto (if weighted then p.2 else 1) acc.1 p.1
        (by rw [hacc, hp]) li i
      simp only [aggStep] at *
      rw [this]
      simp [wgt]
      ring

theorem getD_map_div (c : ℚ) : ∀ (g : List ℚ) (i : ℕ),
    (g.map (fun x => x / c)).getD i 0 = g.getD i 0 / c := by
  intro g
  induction g with
  | nil => intro i; simp
  | cons x xs ih =>
    intro i
    cases i with
    | zero => simp
    | succ n => simpa using ih n

theorem elemW_map_div (c : ℚ) : ∀ (w : Weights) (li i : ℕ),
    elemW (w.map (fun g => g.map (fun x => x / c))) li i = elemW w li i / c := by
  intro w
  induction w with
  | nil => intro li i; simp [elemW]
  | cons g gs ih =>
    intro li i
    cases li with
    | zero =>
      simp only [List.map_cons, elemW, List.getD_cons_zero]
      exact getD_map_div c g i
    | succ n =>
      simp only [List.map_cons, elemW, List.getD_cons_succ]
      exact ih n i

theorem sum_map_wgt_false (l : List (Weights × ℚ)) :
    (l.map (wgt false)).sum = l.length := by
  induction l with
  | nil => simp
  | cons p ps ih => simp [wgt, ih]; ring

/-- C1: for a non-empty batch whose deltas all share the base shape,
`aggregateDeltas` with `weighted = false` is the elementwise arithmetic
average, and with `weighted = true` it is `Σ (weight · delta) / Σ weight`,
elementwise. -/
theorem aggregateDeltas_mean (l : List (Weights × ℚ)) (d0 : Weights × ℚ)
    (h0 : l.head? = some d0) (hsh : ∀ p ∈ l, shapeW p.1 = shapeW d0.1) :
    (∀ li i, elemW (aggregateDeltas l false) li i
        = (l.map (fun p => elemW p.1 li i)).sum / (l.length : ℚ)) ∧
    (∀ li i, elemW (aggregateDeltas l true) li i
        = (l.map (fun p => p.2 * elemW p.1 li i)).sum / (l.map Prod.snd).sum) := by
  cases l with
  | nil => simp at h0
  | cons q rest =>
    have hq : q = d0 := by simpa using h0
    subst hq
    constructor
    · intro li i
      obtain ⟨h1, h2, h3⟩ := agg_foldl false (q :: rest) (zerosLike q.1, 0) (shapeW q.1)
        (shapeW_zerosLike q.1) hsh
      simp only [aggregateDeltas]
      rw [elemW_map_div, h3 li i, h2]
      simp only [elemW_zerosLike, zero_add, wgt]
      congr 1
      · congr 1
        exact List.map_congr_left (fun p _ => by simp)
      · exact sum_map_wgt_false (q :: rest)
    · intro li i
      obtain ⟨h1, h2, h3⟩ := agg_foldl true (q :: rest) (zerosLike q.1, 0) (shapeW q.1)
        (shapeW_zerosLike q.1) hsh
      simp only [aggregateDeltas]
      rw [elemW_map_div, h3 li i, h2]
      simp only [elemW_zerosLike, zero_add, wgt]
      congr 1

/-- C1 witness: the spec's example.  Deltas `[1,2]` with weight 1 and `[3,4]`
with weight 3 weighted-aggregate to `[2.5, 3.5]`. -/
theorem aggregateDeltas_mean_witness :
    elemW (aggregateDeltas [([[1, 2]], 1), ([[3, 4]], 3)] true) 0 1 = 7/2 := by
  rw [(aggregateDeltas_mean [([[1, 2]], 1), ([[3, 4]], 3)] ([[1, 2]], 1) rfl
    (by decide)).2 0 1]
  simp [elemW]
  norm_num

theorem list_ext_getD : ∀ (a b : List ℚ), a.length = b.length →
    (∀ i, a.getD i 0 = b.getD i 0) → a = b := by
  intro a
  induction a with
  | nil =>
    intro b hl _
    cases b with
    | nil => rfl
    | cons y ys => simp at hl
  | cons x xs ih =>
    intro b hl he
    cases b with
    | nil => simp at hl
    | cons y ys =>
      have h0 := he 0
      simp only [List.getD_cons_zero] at h0
      have ht : xs = ys := ih ys (by simpa using hl) (fun i => by
        have := he (i + 1)
        simpa using this)
      rw [h0, ht]

theorem weights_ext : ∀ (a b : Weights), shapeW a = shapeW b →
    (∀ li i, elemW a li i = elemW b li i) → a = b := by
  intro a
  induction a with
  | nil =>
    intro b hs _
    cases b with
    | nil => rfl
    | cons g gs => simp [shapeW] at hs
  | cons g gs ih =>
    intro b hs he
    cases b with
    | nil => simp [shapeW] at hs
    | cons g' gs' =>
      simp only [shapeW, List.map_cons, List.cons.injEq] at hs
      have h0 : g = g' := list_ext_getD g g' hs.1 (fun i => by
        have := he 0 i
        simpa [elemW] using this)
      have ht : gs = gs' := ih gs' hs.2 (fun li i => by
        have := he (li + 1) i
        simpa [elemW] using this)
      rw [h0, ht]

theorem shapeW_map_div (w : Weights) (c : ℚ) :
    shapeW (w.map (fun g => g.map (fun x => x / c))) = shapeW w := by
  simp [shapeW]

theorem shapeW_aggregateDeltas (weighted : Bool) (l : List (Weights × ℚ))
    (d0 : Weights × ℚ) (h0 : l.head? = some d0)
    (hsh : ∀ p ∈ l, shapeW p.1 = shapeW d0.1) :
    shapeW (aggregateDeltas l weighted) = shapeW d0.1 := by
  cases l with
  | nil => simp at h0
  | cons q rest =>
    have hq : q = d0 := by simpa using h0
    subst hq
    obtain ⟨h1, _, _⟩ := agg_foldl weighted (q :: rest) (zerosLike q.1, 0) (shapeW q.1)
      (shapeW_zerosLike q.1) hsh
    simp only [aggregateDeltas]
    rw [shapeW_map_div, h1]

/-- C8: `aggregateDeltas` is invariant under permutations of the batch
(for batches satisfying the data-model shape invariant), for both weighted
and unweighted aggregation. -/
theorem aggregateDeltas_perm (weighted : Bool) (l l' : List (Weights × ℚ))
    (s : List ℕ) (hp : List.Perm l l') (hsh : ∀ p ∈ l, shapeW p.1 = s) :
    aggregateDeltas l' weighted = aggregateDeltas l weighted := by
  cases l with
  | nil =>
    have : l' = [] := hp.symm.eq_nil
    rw [this]
  | cons q rest =>
    cases hl' : l' with
    | nil =>
      exact absurd (hp.trans (by rw [hl'])).eq_nil (by simp)
    | cons q' rest' =>
      subst hl'
      have hq : shapeW q.1 = s := hsh q (List.mem_cons_self q rest)
      have hq' : shapeW q'.1 = s := hsh q' (hp.mem_iff.mpr (List.mem_cons_self q' rest'))
      have hsh' : ∀ p ∈ q' :: rest', shapeW p.1 = s :=
        fun p hpmem => hsh p (hp.mem_iff.mpr hpmem)
      have hshl : ∀ p ∈ q :: rest, shapeW p.1 = shapeW q.1 :=
        fun p hpmem => (hsh p hpmem).trans hq.symm
      have hshl' : ∀ p ∈ q' :: rest', shapeW p.1 = shapeW q'.1 :=
        fun p hpmem => (hsh' p hpmem).trans hq'.symm
      apply weights_ext
      · rw [shapeW_aggregateDeltas weighted (q' :: rest') q' rfl hshl',
          shapeW_aggregateDeltas weighted (q :: rest) q rfl hshl, hq, hq']
      · intro li i
        cases weighted with
        | false =>
          rw [(aggregateDeltas_mean (q' :: rest') q' rfl hshl').1 li i,
            (aggregateDeltas_mean (q :: rest) q rfl hshl).1 li i,
            (hp.map (fun p => elemW p.1 li i)).sum_eq, hp.length_eq]
        | true =>
          rw [(aggregateDeltas_mean (q' :: rest') q' rfl hshl').2 li i,
            (aggregateDeltas_mean (q :: rest) q rfl hshl).2 li i,
            (hp.map (fun p => p.2 * elemW p.1 li i)).sum_eq,
            (hp.map Prod.snd).sum_eq]

/-- C8 witness: swapping the two deltas of the spec's example batch leaves
both aggregation modes unchanged. -/
theorem aggregateDeltas_perm_witness :
    aggregateDeltas [([[3, 4]], 3), ([[1, 2]], 1)] true
      = aggregateDeltas [([[1, 2]], 1), ([[3, 4]], 3)] true :=
  aggregateDeltas_perm true [([[1, 2]], 1), ([[3, 4]], 3)]
    [([[3, 4]], 3), ([[1, 2]], 1)] [2] (by decide) (by decide)

/-! ### SCAFFOLD control variates (`oneStepFL`, single-model path) -/

/-- Elementwise vector sum. -/
def vecAdd (a b : List ℚ) : List ℚ := List.zipWith (fun x y => x + y) a b

/-- Elementwise vector difference (`wLocalAfter[di] - w0[di]`). -/
def vecSub (a b : List ℚ) : List ℚ := List.zipWith (fun x y => x - y) a b

/-- The denominator of the SCAFFOLD control update:
`Math.max(1, cfg.localEpochs) * Math.max(1e-8, cfg.clientLR)`. -/
def scaffoldDenom (localEpochs : ℕ) (clientLR : ℚ) : ℚ :=
  (max 1 localEpochs : ℕ) * max (1e-8) clientLR

/-- The per-client SCAFFOLD control delta (part_003 lines 1851–1855):
`deltaCi[k] = -c[k] + (w0[k] - wLocalAfter[k]) / denom`. -/
def scaffoldDeltaCi (c w0 wAfter : List ℚ) (E : ℕ) (lr : ℚ) : List ℚ :=
  List.zipWith (fun ck d => -ck + d) c
    (List.zipWith (fun a b => (a - b) / scaffoldDenom E lr) w0 wAfter)

/-- Per-client data visible to the SCAFFOLD post-training step: the weights
after local training, the client's control vector `c_i`, and its example
count (the participation weight). -/
structure SClient where
  wAfter : List ℚ
  ci : List ℚ
  size : ℚ
  deriving DecidableEq

/-- The SCAFFOLD tail of a single-model `oneStepFL` round (part_003 lines
1828–1832, 1845, 1847–1861 and 1893–1903): per-client weight deltas, control
deltas added into each client's control vector, aggregation of both with the
configured weighting, the plain `w0 + mean(delta)` server update, and the
global control update `c += aggregate(deltaCs)` (guarded by `deltaCs.length
> 0`).  Local training itself is delegated to the external model, so each
client's `wAfter` is an input.  Returns (new weights, new global control,
new per-client controls). -/
def scaffoldRound (w0 c : List ℚ) (E : ℕ) (lr : ℚ) (weighted : Bool)
    (cl : List SClient) : List ℚ × List ℚ × List (List ℚ) :=
  let deltas := cl.map (fun k => (([vecSub k.wAfter w0] : Weights), k.size))
  let deltaCs := cl.map
    (fun k => (([scaffoldDeltaCi c w0 k.wAfter E lr] : Weights), k.size))
  let newCis := cl.map (fun k => vecAdd k.ci (scaffoldDeltaCi c w0 k.wAfter E lr))
  let agg := aggregateDeltas deltas weighted
  let newW := vecAdd w0 (agg.getD 0 [])
  let newC :=
    if cl.isEmpty then c
    else vecAdd c ((aggregateDeltas deltaCs weighted).getD 0 [])
  (newW, newC, newCis)

theorem scaffoldRound_fst (w0 c : List ℚ) (E : ℕ) (lr : ℚ) (weighted : Bool)
    (cl : List SClient) :
    (scaffoldRound w0 c E lr weighted cl).1
      = vecAdd w0 ((aggregateDeltas
          (cl.map (fun k => (([vecSub k.wAfter w0] : Weights), k.size)))
          weighted).getD 0 []) := rfl

theorem scaffoldRound_snd2 (w0 c : List ℚ) (E : ℕ) (lr : ℚ) (weighted : Bool)
    (cl : List SClient) :
    (scaffoldRound w0 c E lr weighted cl).2.2
      = cl.map (fun k => vecAdd k.ci (scaffoldDeltaCi c w0 k.wAfter E lr)) := rfl

theorem scaffoldRound_cons_snd1 (w0 c : List ℚ) (E : ℕ) (lr : ℚ) (weighted : Bool)
    (k0 : SClient) (rest : List SClient) :
    (scaffoldRound w0 c E lr weighted (k0 :: rest)).2.1
      = vecAdd c ((aggregateDeltas ((k0 :: rest).map
          (fun k => (([scaffoldDeltaCi c w0 k.wAfter E lr] : Weights), k.size)))
          weighted).getD 0 []) := rfl

theorem getD_zipWith_zero (f : ℚ → ℚ → ℚ) (hf : f 0 0 = 0) :
    ∀ (a b : List ℚ), a.length = b.length → ∀ i,
      (List.zipWith f a b).getD i 0 = f (a.getD i 0) (b.getD i 0) := by
  intro a
  induction a with
  | nil =>
    intro b hl i
    cases b with
    | nil => simpa using hf.symm
    | cons y ys => simp at hl
  | cons x xs ih =>
    intro b hl i
    cases b with
    | nil => simp at hl
    | cons y ys =>
      cases i with
      | zero => simp
      | succ n =>
        simp only [List.zipWith_cons_cons, List.getD_cons_succ]
        exact ih ys (by simpa using hl) n

theorem singleton_of_shapeW (w : Weights) (n : ℕ) (h : shapeW w = [n]) :
    ∃ g, w = [g] ∧ g.length = n := by
  cases w with
  | nil => simp [shapeW] at h
  | cons g gs =>
    cases gs with
    | nil =>
      refine ⟨g, rfl, ?_⟩
      simpa [shapeW] using h
    | cons g' gs' => simp [shapeW] at h

theorem sum_map_const_one {β : Type _} (l : List β) :
    (l.map (fun _ => (1 : ℚ))).sum = (l.length : ℚ) := by
  induction l with
  | nil => simp
  | cons a t ih => simp [ih]; ring

/-- C6: under SCAFFOLD (with at least one local epoch and a client learning
rate of at least `1e-8`, where the source's `max` guards are inactive):
each client's control delta equals `-globalControl + (w0 - wAfter)/(E·lr)`
elementwise; it is added to that client's control vector; the global control
vector receives the aggregate of the control deltas under the same weighting
as the weight deltas; and the weight update itself is the plain
mean-of-deltas rule `w0 + mean(wAfter - w0)`. -/
theorem scaffold_round_spec (w0 c : List ℚ) (E : ℕ) (lr : ℚ) (weighted : Bool)
    (cl : List SClient) (n : ℕ)
    (hE : 1 ≤ E) (hlr : (1e-8 : ℚ) ≤ lr) (hne : cl ≠ [])
    (hw0 : w0.length = n) (hc : c.length = n)
    (hcl : ∀ k ∈ cl, k.wAfter.length = n) :
    (∀ k ∈ cl, ∀ j, (scaffoldDeltaCi c w0 k.wAfter E lr).getD j 0
        = -(c.getD j 0) + (w0.getD j 0 - k.wAfter.getD j 0) / ((E : ℚ) * lr)) ∧
    ((scaffoldRound w0 c E lr weighted cl).2.2
        = cl.map (fun k => vecAdd k.ci (scaffoldDeltaCi c w0 k.wAfter E lr))) ∧
    (∀ j, ((scaffoldRound w0 c E lr weighted cl).2.1).getD j 0
        = c.getD j 0 +
          (cl.map (fun k => (if weighted then k.size else 1) *
              (scaffoldDeltaCi c w0 k.wAfter E lr).getD j 0)).sum /
            (cl.map (fun k => if weighted then k.size else 1)).sum) ∧
    (∀ j, ((scaffoldRound w0 c E lr weighted cl).1).getD j 0
        = w0.getD j 0 +
          (cl.map (fun k => (if weighted then k.size else 1) *
              (k.wAfter.getD j 0 - w0.getD j 0))).sum /
            (cl.map (fun k => if weighted then k.size else 1)).sum) := by
  have hdenom : scaffoldDenom E lr = (E : ℚ) * lr := by
    unfold scaffoldDenom
    rw [Nat.max_eq_right hE, max_eq_right hlr]
  have hlenCi : ∀ k ∈ cl, (scaffoldDeltaCi c w0 k.wAfter E lr).length = n := by
    intro k hk
    simp [scaffoldDeltaCi, hw0, hc, hcl k hk]
  have hgetCi : ∀ k ∈ cl, ∀ j, (scaffoldDeltaCi c w0 k.wAfter E lr).getD j 0
      = -(c.getD j 0) + (w0.getD j 0 - k.wAfter.getD j 0) / ((E : ℚ) * lr) := by
    intro k hk j
    unfold scaffoldDeltaCi
    rw [getD_zipWith_zero (fun ck d => -ck + d) (by ring) c _
        (by simp [hw0, hc, hcl k hk]) j,
      getD_zipWith_zero (fun a b => (a - b) / scaffoldDenom E lr)
        (by simp) w0 k.wAfter (by rw [hw0, hcl k hk]) j, hdenom]
  refine ⟨hgetCi, scaffoldRound_snd2 w0 c E lr weighted cl, ?_, ?_⟩
  · -- global control update
    intro j
    cases cl with
    | nil => exact absurd rfl hne
    | cons k0 rest =>
      have hshape : ∀ p ∈ (k0 :: rest).map
          (fun k => (([scaffoldDeltaCi c w0 k.wAfter E lr] : Weights), k.size)),
          shapeW p.1 = shapeW ([scaffoldDeltaCi c w0 k0.wAfter E lr] : Weights) := by
        intro p hp
        simp only [List.mem_map] at hp
        obtain ⟨k, hk, rfl⟩ := hp
        simp [shapeW, hlenCi k hk, hlenCi k0 (List.mem_cons_self k0 rest)]
      have hmean := (aggregateDeltas_mean ((k0 :: rest).map
        (fun k => (([scaffoldDeltaCi c w0 k.wAfter E lr] : Weights), k.size)))
        (([scaffoldDeltaCi c w0 k0.wAfter E lr] : Weights), k0.size) (by simp) hshape).2
      have hmean' := (aggregateDeltas_mean ((k0 :: rest).map
        (fun k => (([scaffoldDeltaCi c w0 k.wAfter E lr] : Weights), k.size)))
        (([scaffoldDeltaCi c w0 k0.wAfter E lr] : Weights), k0.size) (by simp) hshape).1
      have hsh := shapeW_aggregateDeltas weighted ((k0 :: rest).map
        (fun k => (([scaffoldDeltaCi c w0 k.wAfter E lr] : Weights), k.size)))
        (([scaffoldDeltaCi c w0 k0.wAfter E lr] : Weights), k0.size) (by simp) hshape
      rw [show shapeW ([scaffoldDeltaCi c w0 k0.wAfter E lr] : Weights) = [n] by
        simp [shapeW, hlenCi k0 (List.mem_cons_self k0 rest)]] at hsh
      obtain ⟨g, hg, hglen⟩ := singleton_of_shapeW _ n hsh
      rw [scaffoldRound_cons_snd1]
      unfold vecAdd
      rw [getD_zipWith_zero (fun x y => x + y) (by ring) c _
        (by rw [hc, hg]; simpa using hglen.symm) j]
      show c.getD j 0 + _ = _
      congr 1
      cases weighted with
      | true =>
        refine (hmean 0 j).trans ?_
        simp [List.map_map, Function.comp_def, elemW]
      | false =>
        refine (hmean' 0 j).trans ?_
        simp only [List.map_map, Function.comp_def, List.length_map]
        congr 1
        · exact congrArg List.sum (List.map_congr_left (fun k hk => by
            simp [elemW]))
        · simp [sum_map_const_one]
          ring
  · -- plain mean-of-deltas weight update
    intro j
    cases cl with
    | nil => exact absurd rfl hne
    | cons k0 rest =>
      have hlenD : ∀ k ∈ (k0 :: rest), (vecSub k.wAfter w0).length = n := by
        intro k hk
        simp [vecSub, hw0, hcl k hk]
      have hshape : ∀ p ∈ (k0 :: rest).map
          (fun k => (([vecSub k.wAfter w0] : Weights), k.size)),
          shapeW p.1 = shapeW ([vecSub k0.wAfter w0] : Weights) := by
        intro p hp
        simp only [List.mem_map] at hp
        obtain ⟨k, hk, rfl⟩ := hp
        simp [shapeW, hlenD k hk, hlenD k0 (List.mem_cons_self k0 rest)]
      have hmean := (aggregateDeltas_mean ((k0 :: rest).map
        (fun k => (([vecSub k.wAfter w0] : Weights), k.size)))
        (([vecSub k0.wAfter w0] : Weights), k0.size) (by simp) hshape).2
      have hmean' := (aggregateDeltas_mean ((k0 :: rest).map
        (fun k => (([vecSub k.wAfter w0] : Weights), k.size)))
        (([vecSub k0.wAfter w0] : Weights), k0.size) (by simp) hshape).1
      have hsh := shapeW_aggregateDeltas weighted ((k0 :: rest).map
        (fun k => (([vecSub k.wAfter w0] : Weights), k.size)))
        (([vecSub k0.wAfter w0] : Weights), k0.size) (by simp) hshape
      rw [show shapeW ([vecSub k0.wAfter w0] : Weights) = [n] by
        simp [shapeW, hlenD k0 (List.mem_cons_self k0 rest)]] at hsh
      obtain ⟨g, hg, hglen⟩ := singleton_of_shapeW _ n hsh
      have hsub : ∀ k ∈ (k0 :: rest), ∀ i,
          (vecSub k.wAfter w0).getD i 0 = k.wAfter.getD i 0 - w0.getD i 0 := by
        intro k hk i
        exact getD_zipWith_zero (fun x y => x - y) (by ring) _ _
          (by rw [hw0, hcl k hk]) i
      rw [scaffoldRound_fst]
      unfold vecAdd
      rw [getD_zipWith_zero (fun x y => x + y) (by ring) w0 _
        (by rw [hw0, hg]; simpa using hglen.symm) j]
      show w0.getD j 0 + _ = _
      congr 1
      cases weighted with
      | true =>
        refine (hmean 0 j).trans ?_
        simp only [List.map_map, Function.comp_def]
        congr 1
        · refine congrArg List.sum (List.map_congr_left (fun k hk => ?_))
          simp only [elemW, List.getD_cons_zero]
          rw [hsub k hk j]
          simp
      | false =>
        refine (hmean' 0 j).trans ?_
        simp only [List.map_map, Function.comp_def, List.length_map]
        congr 1
        · refine congrArg List.sum (List.map_congr_left (fun k hk => ?_))
          simp only [elemW, List.getD_cons_zero]
          rw [hsub k hk j]
          simp
        · simp [sum_map_const_one]
          ring

/-- C6 witness: one client, one epoch, learning rate 1, unweighted:
the new weights are `w0 + (wAfter - w0) = wAfter`. -/
theorem scaffold_round_spec_witness :
    ((scaffoldRound [0] [0] 1 1 false [⟨[2], [0], 1⟩]).1).getD 0 0 = 2 := by
  have h := (scaffold_round_spec [0] [0] 1 1 false [⟨[2], [0], 1⟩] 1
    (by decide) (by norm_num) (by decide) rfl rfl
    (by intro k hk; simp at hk; subst hk; rfl)).2.2.2 0
  rw [h]
  norm_num

/-! ### Round sampling (the SAMPLE step of the orchestrators) -/

/-- `Math.round` on a rational: round half up. -/
def jsRound (x : ℚ) : ℤ := Int.floor (x + 1/2)

/-- `k = Math.max(1, Math.round(clientFrac * clients.length))`, as computed
by both `doRound` (part_000 line 36) and `oneStepFL` (part_003 line 1701). -/
def sampleCount (clientFrac : ℚ) (population : ℕ) : ℕ :=
  max 1 (jsRound (clientFrac * population)).toNat

/-- The dropout filter shared by `doRound` (part_000 lines 40–44) and
`oneStepFL` (part_003 lines 1704–1710): walk the first `k` shuffled clients
and keep each one whose uniform draw exceeds the dropout probability.
The shuffled order and the `Math.random()` draws are explicit inputs. -/
def sampleRoundClients {α : Type} (shuffled : List α) (k : ℕ) (dropout : ℚ)
    (rands : List ℚ) : List α :=
  ((shuffled.take k).zip rands).filterMap
    (fun p => if dropout < p.2 then some p.1 else none)

/-- `oneStepFL` (part_003 line 1711 and, on the clustered path, line 1499)
additionally force-includes the first shuffled client when the dropout filter
removed everyone.  `doRound` in part_000 has no such fallback. -/
def oneStepRoundClients {α : Type} (shuffled : List α) (k : ℕ) (dropout : ℚ)
    (rands : List ℚ) : List α :=
  let rc := sampleRoundClients shuffled k dropout rands
  if rc.isEmpty then
    match shuffled with
    | [] => []
    | c :: _ => [c]
  else rc

/-- C3 counterexample: the claim fails for `doRound` in part_000, which lacks
the forced-inclusion fallback.  With one client, `clientFrac = 1` and 100%
dropout, the valid uniform draw `1/2` leaves the participant set empty, so
aggregation would run on an empty batch. -/
theorem doRound_empty_participants_cex :
    sampleRoundClients [(0 : ℕ)] (sampleCount 1 1) 1 [1/2] = []
      ∧ (0 : ℚ) ≤ 1/2 ∧ (1/2 : ℚ) < 1 := by
  have hk : sampleCount 1 1 = 1 := by
    norm_num [sampleCount, jsRound]
  refine ⟨?_, by norm_num, by norm_num⟩
  rw [hk]
  norm_num [sampleRoundClients]

/-- C3 (amended): in `oneStepFL`, for every sample size, every dropout
probability (including 1) and every sequence of uniform draws, the
participant set is non-empty whenever the client population is, thanks to
the forced-inclusion fallback. -/
theorem oneStep_participants_nonempty {α : Type} (shuffled : List α) (k : ℕ)
    (dropout : ℚ) (rands : List ℚ) (h : shuffled ≠ []) :
    oneStepRoundClients shuffled k dropout rands ≠ [] := by
  unfold oneStepRoundClients
  cases hrc : (sampleRoundClients shuffled k dropout rands).isEmpty with
  | true =>
    rw [if_pos hrc]
    cases shuffled with
    | nil => exact absurd rfl h
    | cons c rest => simp
  | false =>
    rw [if_neg (by simp [hrc])]
    intro hcontr
    rw [hcontr] at hrc
    simp at hrc

/-- C3 witness: one client, 100% dropout, a valid draw: the force-included
client keeps the round non-degenerate. -/
theorem oneStep_participants_nonempty_witness :
    oneStepRoundClients [(0 : ℕ)] 1 1 [1/2] ≠ [] :=
  oneStep_participants_nonempty [(0 : ℕ)] 1 1 [1/2] (by decide)

/-! ### Differential-privacy sanitizer (`dp.ts`), over ℝ -/

/-- Real-valued weights, for the code paths that take square roots. -/
abbrev RWeights := List (List ℝ)

/-- The `sq` accumulator of `clipUpdate`: the sum of squares of all elements
of all groups. -/
def sqSumW (w : RWeights) : ℝ := (w.map (fun g => (g.map (fun x => x * x)).sum)).sum

/-- The global L2 norm across all groups' elements concatenated. -/
noncomputable def l2NormW (w : RWeights) : ℝ := Real.sqrt (sqSumW w)

/-- `const norm = Math.sqrt(sq) || 1e-12`. -/
noncomputable def l2NormFb (w : RWeights) : ℝ :=
  if l2NormW w = 0 then 1e-12 else l2NormW w

/-- Whether a sanitizer call returned its input object itself (the source's
early `return delta`) or a freshly allocated value (`return delta.map(...)`). -/
inductive DPResult where
  | aliased : DPResult
  | fresh : RWeights → DPResult

/-- `clipUpdate` from `dp.ts`, with the allocation behavior made explicit.
`!isFinite(clip)` cannot occur over ℝ, leaving the `clip <= 0` guard. -/
noncomputable def clipUpdateA (delta : RWeights) (clip : ℝ) : DPResult :=
  if clip ≤ 0 then .aliased
  else
    let scale := min 1 (clip / l2NormFb delta)
    if scale = 1 then .aliased
    else .fresh (delta.map (fun g => g.map (fun x => x * scale)))

/-- The value `clipUpdate` returns. -/
noncomputable def clipUpdate (delta : RWeights) (clip : ℝ) : RWeights :=
  match clipUpdateA delta clip with
  | .aliased => delta
  | .fresh w => w

/-- One Box–Muller standard-normal draw from two uniform draws. -/
noncomputable def boxMuller (u v : ℝ) : ℝ :=
  Real.sqrt (-2 * Real.log u) * Real.cos (2 * Real.pi * v)

/-- One group of `addGaussianNoise`: two uniform draws per element, threading
the position in the global `Math.random()` stream. -/
noncomputable def addNoiseVec (std : ℝ) (rnd : ℕ → ℝ) : ℕ → List ℝ → List ℝ × ℕ
  | k, [] => ([], k)
  | k, x :: xs =>
    let n := boxMuller (rnd k) (rnd (k + 1))
    let (rest, k') := addNoiseVec std rnd (k + 2) xs
    ((x + std * n) :: rest, k')

noncomputable def addNoiseGroups (std : ℝ) (rnd : ℕ → ℝ) :
    ℕ → List (List ℝ) → List (List ℝ)
  | _, [] => []
  | k, g :: gs =>
    let p := addNoiseVec std rnd k g
    p.1 :: addNoiseGroups std rnd p.2 gs

/-- `addGaussianNoise` from `dp.ts`, allocation behavior explicit, with the
uniform stream passed as `rnd`. -/
noncomputable def addGaussianNoiseA (delta : RWeights) (std : ℝ) (rnd : ℕ → ℝ) :
    DPResult :=
  if std ≤ 0 then .aliased
  else .fresh (addNoiseGroups std rnd 0 delta)

/-- The value `addGaussianNoise` returns. -/
noncomputable def addGaussianNoise (delta : RWeights) (std : ℝ) (rnd : ℕ → ℝ) :
    RWeights :=
  match addGaussianNoiseA delta std rnd with
  | .aliased => delta
  | .fresh w => w

theorem sqSumW_nonneg (w : RWeights) : 0 ≤ sqSumW w := by
  apply List.sum_nonneg
  intro x hx
  simp only [List.mem_map] at hx
  obtain ⟨g, _, rfl⟩ := hx
  apply List.sum_nonneg
  intro y hy
  simp only [List.mem_map] at hy
  obtain ⟨z, _, rfl⟩ := hy
  exact mul_self_nonneg z

theorem sum_nonneg_eq_zero : ∀ (l : List ℝ), (∀ x ∈ l, 0 ≤ x) → l.sum = 0 →
    ∀ x ∈ l, x = 0 := by
  intro l
  induction l with
  | nil => intro _ _ x hx; simp at hx
  | cons a t ih =>
    intro hpos hsum x hx
    have hta : 0 ≤ a := hpos a (List.mem_cons_self a t)
    have htt : 0 ≤ t.sum := List.sum_nonneg (fun y hy => hpos y (List.mem_cons_of_mem a hy))
    rw [List.sum_cons] at hsum
    have ha : a = 0 := by linarith
    have ht : t.sum = 0 := by linarith
    rcases List.mem_cons.mp hx with h | h
    · rw [h, ha]
    · exact ih (fun y hy => hpos y (List.mem_cons_of_mem a hy)) ht x h

theorem sqSumW_eq_zero (w : RWeights) (h : sqSumW w = 0) :
    ∀ g ∈ w, ∀ x ∈ g, x = 0 := by
  intro g hg x hx
  have hginner : (g.map (fun x => x * x)).sum = 0 := by
    refine sum_nonneg_eq_zero _ ?_ h _ (List.mem_map_of_mem _ hg)
    intro y hy
    simp only [List.mem_map] at hy
    obtain ⟨gg, _, rfl⟩ := hy
    apply List.sum_nonneg
    intro z hz
    simp only [List.mem_map] at hz
    obtain ⟨zz, _, rfl⟩ := hz
    exact mul_self_nonneg zz
  have := sum_nonneg_eq_zero _ (by
    intro y hy
    simp only [List.mem_map] at hy
    obtain ⟨z, _, rfl⟩ := hy
    exact mul_self_nonneg z) hginner (x * x) (List.mem_map_of_mem _ hx)
  exact mul_self_eq_zero.mp this

theorem l2NormW_nonneg (w : RWeights) : 0 ≤ l2NormW w := Real.sqrt_nonneg _

theorem l2NormW_eq_zero_iff (w : RWeights) : l2NormW w = 0 ↔ sqSumW w = 0 := by
  unfold l2NormW
  rw [Real.sqrt_eq_zero (sqSumW_nonneg w)]

theorem l2NormFb_pos (w : RWeights) : 0 < l2NormFb w := by
  unfold l2NormFb
  by_cases h : l2NormW w = 0
  · rw [if_pos h]; norm_num
  · rw [if_neg h]
    exact lt_of_le_of_ne (l2NormW_nonneg w) (Ne.symm h)

/-- C2: for every positive threshold: if the global L2 norm exceeds it, the
result is the input with every element scaled by `threshold / norm`;
otherwise the result is the input unchanged. -/
theorem clipUpdate_spec (delta : RWeights) (clip : ℝ) (hc : 0 < clip) :
    (clip < l2NormW delta →
      clipUpdate delta clip
        = delta.map (fun g => g.map (fun x => x * (clip / l2NormW delta)))) ∧
    (l2NormW delta ≤ clip → clipUpdate delta clip = delta) := by
  constructor
  · intro hlt
    have hnorm : 0 < l2NormW delta := lt_trans hc hlt
    have hfb : l2NormFb delta = l2NormW delta := by
      unfold l2NormFb
      rw [if_neg (ne_of_gt hnorm)]
    have hscale : clip / l2NormFb delta < 1 := by
      rw [hfb, div_lt_one hnorm]
      exact hlt
    have hmin : min 1 (clip / l2NormFb delta) = clip / l2NormFb delta :=
      min_eq_right (le_of_lt hscale)
    have hscale' : clip / l2NormW delta < 1 := by
      rw [← hfb]; exact hscale
    unfold clipUpdate clipUpdateA
    rw [if_neg (not_le.mpr hc)]
    simp only [hmin]
    rw [if_neg (by rw [hfb]; exact ne_of_lt hscale'), hfb]
  · intro hle
    by_cases hz : l2NormW delta = 0
    · -- all elements are zero, so scaling (if any) leaves the value unchanged
      have hall : ∀ g ∈ delta, ∀ x ∈ g, x = 0 :=
        sqSumW_eq_zero delta ((l2NormW_eq_zero_iff delta).mp hz)
      unfold clipUpdate clipUpdateA
      rw [if_neg (not_le.mpr hc)]
      by_cases hone : min 1 (clip / l2NormFb delta) = 1
      · rw [if_pos hone]
      · rw [if_neg hone]
        have : delta.map (fun g => g.map
            (fun x => x * min 1 (clip / l2NormFb delta))) = delta := by
          have : ∀ g ∈ delta, g.map
              (fun x => x * min 1 (clip / l2NormFb delta)) = g := by
            intro g hg
            have : ∀ x ∈ g, x * min 1 (clip / l2NormFb delta) = x := by
              intro x hx
              rw [hall g hg x hx]
              ring
            rw [List.map_congr_left this]
            simp
          rw [List.map_congr_left this]
          simp
        rw [this]
    · have hnorm : 0 < l2NormW delta :=
        lt_of_le_of_ne (l2NormW_nonneg delta) (Ne.symm hz)
      have hfb : l2NormFb delta = l2NormW delta := by
        unfold l2NormFb
        rw [if_neg hz]
      have hone : min 1 (clip / l2NormFb delta) = 1 := by
        apply min_eq_left
        rw [hfb, one_le_div hnorm]
        exact hle
      unfold clipUpdate clipUpdateA
      rw [if_neg (not_le.mpr hc), if_pos hone]

theorem l2NormW_34 : l2NormW [[(3 : ℝ), 4]] = 5 := by
  unfold l2NormW sqSumW
  norm_num
  rw [show (25 : ℝ) = 5 ^ 2 by norm_num, Real.sqrt_sq (by norm_num)]

/-- C2 witness: the spec's example.  `[3,4]` has norm 5; clipping to
threshold 2 scales by `2/5`, giving `[1.2, 1.6]`; and a vector already
within a bound of 6 is returned unchanged. -/
theorem clipUpdate_spec_witness :
    clipUpdate [[(3 : ℝ), 4]] 2 = [[1.2, 1.6]]
      ∧ clipUpdate [[(3 : ℝ), 4]] 6 = [[3, 4]] := by
  constructor
  · rw [(clipUpdate_spec [[(3 : ℝ), 4]] 2 (by norm_num)).1
      (by rw [l2NormW_34]; norm_num)]
    rw [l2NormW_34]
    norm_num
  · exact (clipUpdate_spec [[(3 : ℝ), 4]] 6 (by norm_num)).2
      (by rw [l2NormW_34]; norm_num)

/-- C9 counterexample: `clipUpdate` does not always return a freshly
allocated value: for a positive threshold not exceeded by the norm
(`[3,4]`, threshold 10) the source's `return delta` hands back the input
object itself. -/
theorem clipUpdate_aliased_cex :
    clipUpdateA [[(3 : ℝ), 4]] 10 = DPResult.aliased := by
  unfold clipUpdateA
  rw [if_neg (by norm_num)]
  have hfb : l2NormFb [[(3 : ℝ), 4]] = 5 := by
    unfold l2NormFb
    rw [l2NormW_34]
    norm_num
  simp only [hfb]
  rw [if_pos (by norm_num)]

/-- C9 (amended): neither operation mutates its input (they are pure value
functions here); each returns a fresh value exactly when it changes the
value, and otherwise (non-positive parameter, or norm within the clip
threshold so that the scale is 1) returns the input object itself, whose
value is then unchanged. -/
theorem dp_alias_spec (delta : RWeights) (clip std : ℝ) (rnd : ℕ → ℝ) :
    (clipUpdateA delta clip = DPResult.aliased ↔
      clip ≤ 0 ∨ l2NormFb delta ≤ clip) ∧
    (clipUpdateA delta clip = DPResult.aliased → clipUpdate delta clip = delta) ∧
    (addGaussianNoiseA delta std rnd = DPResult.aliased ↔ std ≤ 0) ∧
    (addGaussianNoiseA delta std rnd = DPResult.aliased →
      addGaussianNoise delta std rnd = delta) := by
  refine ⟨?_, ?_, ?_, ?_⟩
  · unfold clipUpdateA
    by_cases h0 : clip ≤ 0
    · rw [if_pos h0]
      simp [h0]
    · rw [if_neg h0]
      simp only [h0, false_or]
      by_cases hone : min 1 (clip / l2NormFb delta) = 1
      · rw [if_pos hone]
        have : l2NormFb delta ≤ clip := by
          rw [← one_le_div (l2NormFb_pos delta)]
          exact (min_eq_left_iff.mp hone)
        simp [this]
      · rw [if_neg hone]
        constructor
        · intro hcontr
          exact absurd hcontr (by simp)
        · intro hle
          exact absurd (min_eq_left ((one_le_div (l2NormFb_pos delta)).mpr hle))
            hone
  · intro h
    unfold clipUpdate
    rw [h]
  · unfold addGaussianNoiseA
    by_cases h0 : std ≤ 0
    · rw [if_pos h0]
      simp [h0]
    · rw [if_neg h0]
      constructor
      · intro hcontr
        exact absurd hcontr (by simp)
      · intro hle
        exact absurd hle h0
  · intro h
    unfold addGaussianNoise
    rw [h]

/-! ### Server-side Adam (`optimizers.ts`), over ℝ -/

/-- The `ServerAdam` optimizer: hyperparameters plus the mutable moment
vectors (`null` before first use) and the step counter. -/
structure ServerAdam where
  lr : ℝ
  beta1 : ℝ
  beta2 : ℝ
  eps : ℝ
  m : Option RWeights
  v : Option RWeights
  t : ℕ

/-- `new ServerAdam(lr, beta1, beta2, eps)`. -/
def ServerAdam.new (lr beta1 beta2 eps : ℝ) : ServerAdam :=
  ⟨lr, beta1, beta2, eps, none, none, 0⟩

/-- The body of the element loop of `ServerAdam.step` at step counter `t`:
updated first moment, updated second moment, and the new weight
`w - lr * mhat / (sqrt(vhat) + eps)` with bias correction. -/
noncomputable def adamElem (s : ServerAdam) (t : ℕ) (w g mi vi : ℝ) : ℝ × ℝ × ℝ :=
  let m1 := s.beta1 * mi + (1 - s.beta1) * g
  let v1 := s.beta2 * vi + (1 - s.beta2) * g * g
  let mhat := m1 / (1 - s.beta1 ^ t)
  let vhat := v1 / (1 - s.beta2 ^ t)
  (m1, v1, w - s.lr * (mhat / (Real.sqrt vhat + s.eps)))

/-- The element loop of `ServerAdam.step` over one parameter group. -/
noncomputable def adamZip (s : ServerAdam) (t : ℕ) :
    List ℝ → List ℝ → List ℝ → List ℝ → List (ℝ × ℝ × ℝ)
  | w :: ws, g :: gs, mi :: ms, vi :: vs =>
      adamElem s t w g mi vi :: adamZip s t ws gs ms vs
  | _, _, _, _ => []

/-- The group loop of `ServerAdam.step`. -/
noncomputable def adamZipW (s : ServerAdam) (t : ℕ) :
    RWeights → RWeights → RWeights → RWeights → List (List (ℝ × ℝ × ℝ))
  | w :: ws, g :: gs, mi :: ms, vi :: vs =>
      adamZip s t w g mi vi :: adamZipW s t ws gs ms vs
  | _, _, _, _ => []

/-- `ServerAdam.step` from `optimizers.ts`: increments the step counter,
lazily allocates zero moment vectors shaped like the gradient on first use,
updates both moments, and subtracts the bias-corrected update from the
weights.  Returns the updated optimizer state and the new weights. -/
noncomputable def ServerAdam.step (s : ServerAdam) (weights grad : RWeights) :
    ServerAdam × RWeights :=
  let t := s.t + 1
  let m0 := s.m.getD (grad.map (fun gg => gg.map (fun _ => 0)))
  let v0 := s.v.getD (grad.map (fun gg => gg.map (fun _ => 0)))
  let z := adamZipW s t weights grad m0 v0
  let m1 := z.map (fun gr => gr.map (fun x => x.1))
  let v1 := z.map (fun gr => gr.map (fun x => x.2.1))
  let out := z.map (fun gr => gr.map (fun x => x.2.2))
  ({ s with m := some m1, v := some v1, t := t }, out)

/-- C5: a fresh `ServerAdam(0.01, 0.9, 0.999, 1e-8)`, starting weights 0 and
constant gradient 1: the first step lands within `1e-8` of `-0.01`. -/
theorem adam_first_step :
    |(((ServerAdam.new 0.01 0.9 0.999 1e-8).step [[0]] [[1]]).2.getD 0 []).getD 0 0
      - (-0.01)| ≤ 1e-8 := by
  have h : (((ServerAdam.new 0.01 0.9 0.999 1e-8).step [[0]] [[1]]).2.getD 0 []).getD 0 0
      = (0 : ℝ) - 0.01 * (((0.9 * 0 + (1 - 0.9) * 1) / (1 - 0.9 ^ 1)) /
        (Real.sqrt ((0.999 * 0 + (1 - 0.999) * 1 * 1) / (1 - 0.999 ^ 1)) + 1e-8)) := by
    simp [ServerAdam.step, ServerAdam.new, adamZipW, adamZip, adamElem]
  rw [h, show ((0.999 * 0 + (1 - 0.999) * 1 * 1 : ℝ) / (1 - 0.999 ^ 1)) = 1 by
    norm_num, Real.sqrt_one]
  rw [abs_le]
  constructor <;> norm_num

/-! ### Round-level optimizer/variate state (`oneStepFL`,
`rebuildFLClientsIfNeeded`) -/

/-- The algorithm selector. -/
inductive Algo where
  | FedAvg | FedAdam | FedProx | SCAFFOLD
  deriving DecidableEq

/-- The partition signature
`state.seed|cfg.numClients|state.batchSize|cfg.iidAlpha|state.problem`
(part_003 line 1227); `flLastSeed` is one of its components. -/
structure FLSig where
  seed : ℕ
  numClients : ℕ
  batchSize : ℕ
  iidAlpha : ℚ
  problem : ℕ
  deriving DecidableEq

/-- The configuration fields relevant to the optimizer state. -/
structure FLCfg where
  algo : Algo
  sig : FLSig
  serverLR : ℝ
  beta1 : ℝ
  beta2 : ℝ
  eps : ℝ

/-- The module-level mutable state of part_003 relevant to claim C7:
`flServerAdam`, `flLastAlgo` (`""` initially, modelled as `none`),
`flClients`-built flag, `flLastSig`, and the SCAFFOLD variates. -/
structure FLState where
  serverAdam : Option ServerAdam
  lastAlgo : Option Algo
  hasClients : Bool
  lastSig : Option FLSig
  scaffoldC : Option (List ℝ)
  scaffoldCi : List (Option (List ℝ))

/-- part_003 lines 1471–1476: on an algorithm change, drop the Adam state and
the SCAFFOLD variates and remember the new algorithm. -/
def algoPrologue (cfg : FLCfg) (st : FLState) : FLState :=
  if st.lastAlgo = some cfg.algo then st
  else { st with serverAdam := none, scaffoldC := none, scaffoldCi := [],
                 lastAlgo := some cfg.algo }

/-- `rebuildFLClientsIfNeeded` (part_003 lines 1225–1258): when the partition
signature changed (or clients were never built), rebuild the clients, reset
the SCAFFOLD variates and the clustering state, and record the signature.
`flServerAdam` is not touched here. -/
def rebuildFLClientsIfNeeded (cfg : FLCfg) (st : FLState) : FLState :=
  if st.hasClients ∧ st.lastSig = some cfg.sig then st
  else { st with hasClients := true, lastSig := some cfg.sig,
                 scaffoldC := none,
                 scaffoldCi := List.replicate cfg.sig.numClients none }

/-- The FedAdam server update (part_003 lines 1879–1891): construct the
optimizer from the configuration if absent, then step it on the (negated
aggregate) gradient. -/
noncomputable def adamServerUpdate (cfg : FLCfg) (st : FLState)
    (w0 : List ℝ) (grad : RWeights) : FLState :=
  let adam := st.serverAdam.getD (ServerAdam.new cfg.serverLR cfg.beta1 cfg.beta2 cfg.eps)
  { st with serverAdam := some (adam.step [w0] grad).1 }

/-- The optimizer-state maintenance of one `oneStepFL` round: algorithm
prologue, client rebuild, then (under FedAdam) the adaptive server step. -/
noncomputable def flRoundState (cfg : FLCfg) (st : FLState)
    (w0 : List ℝ) (grad : RWeights) : FLState :=
  let st1 := algoPrologue cfg st
  let st2 := rebuildFLClientsIfNeeded cfg st1
  if cfg.algo = Algo.FedAdam then adamServerUpdate cfg st2 w0 grad else st2

/-- A concrete optimizer state mid-training: step counter 3. -/
noncomputable def adamT3 : ServerAdam :=
  ⟨0.01, 0.9, 0.999, 1e-8, some [[0]], some [[0]], 3⟩

/-- A concrete pre-round state: FedAdam already selected, clients built under
signature seed 0. -/
noncomputable def stTopo : FLState :=
  ⟨some adamT3, some Algo.FedAdam, true, some ⟨0, 2, 16, 10, 0⟩, none, []⟩

/-- The same configuration except for a changed partition seed
(a topology change). -/
noncomputable def cfgTopo : FLCfg :=
  ⟨Algo.FedAdam, ⟨1, 2, 16, 10, 0⟩, 0.01, 0.9, 0.999, 1e-8⟩

/-- C7 counterexample: a topology (partition-signature) change does *not*
reset the adaptive optimizer: its step counter continues (3 → 4) through a
round whose signature differs from the recorded one, whereas a reset would
restart it at 1. -/
theorem adam_not_reset_on_topology_change_cex :
    stTopo.lastSig ≠ some cfgTopo.sig ∧
    (flRoundState cfgTopo stTopo [0] [[1]]).serverAdam.map ServerAdam.t = some 4
      ∧ some 4 ≠ some 1 := by
  refine ⟨by simp [stTopo, cfgTopo], ?_, by simp⟩
  simp [flRoundState, algoPrologue, rebuildFLClientsIfNeeded, adamServerUpdate,
    stTopo, cfgTopo, adamT3, ServerAdam.step]

/-- C7 (amended): the adaptive optimizer state is dropped exactly when the
algorithm selection changes; otherwise it persists through the round (with
the FedAdam step applied to it), being constructed lazily from the
configuration on first use.  A topology change (as handled by
`rebuildFLClientsIfNeeded`) resets the SCAFFOLD variates but leaves the Adam
state intact. -/
theorem rebuild_serverAdam (cfg : FLCfg) (st : FLState) :
    (rebuildFLClientsIfNeeded cfg st).serverAdam = st.serverAdam := by
  unfold rebuildFLClientsIfNeeded
  split <;> rfl

theorem algoPrologue_serverAdam (cfg : FLCfg) (st : FLState) :
    (algoPrologue cfg st).serverAdam =
      if st.lastAlgo = some cfg.algo then st.serverAdam else none := by
  unfold algoPrologue
  split <;> simp_all

theorem adam_state_reset (cfg : FLCfg) (st : FLState) (w0 : List ℝ)
    (grad : RWeights) :
    (flRoundState cfg st w0 grad).serverAdam =
      (if cfg.algo = Algo.FedAdam then
        some ((((if st.lastAlgo = some cfg.algo then st.serverAdam else none)).getD
          (ServerAdam.new cfg.serverLR cfg.beta1 cfg.beta2 cfg.eps)).step
            [w0] grad).1
      else if st.lastAlgo = some cfg.algo then st.serverAdam else none) := by
  unfold flRoundState adamServerUpdate
  by_cases hadam : cfg.algo = Algo.FedAdam <;>
    simp [hadam, rebuild_serverAdam, algoPrologue_serverAdam]

/-! ### k-means clustering: the two `kMeans` implementations in part_002 -/

/-- A data point. -/
abbrev Vec := List ℝ

/-- `dot` from part_002. -/
def dot (a b : Vec) : ℝ := (List.zipWith (fun x y => x * y) a b).sum

/-- `norm` from part_002: the Euclidean norm. -/
noncomputable def vnorm (a : Vec) : ℝ := Real.sqrt (dot a a)

/-- `l2Dist2` from part_002: squared L2 distance. -/
def l2Dist2 (a b : Vec) : ℝ := (List.zipWith (fun x y => (x - y) * (x - y)) a b).sum

/-- `normalizeInPlace` of the first implementation (part_002 lines 25–29):
`const d = n || 1e-12`. -/
noncomputable def normalizeFst (v : Vec) : Vec :=
  let n := vnorm v
  let d := if n = 0 then 1e-12 else n
  v.map (fun x => x / d)

/-- `normalizeInPlace` of the second implementation (part_002 lines 185–190):
`const d = Math.max(n, 1e-12)`. -/
noncomputable def normalizeSnd (v : Vec) : Vec :=
  let d := max (vnorm v) 1e-12
  v.map (fun x => x / d)

/-- The clustering metric. -/
inductive Metric where
  | cosine | l2
  deriving DecidableEq

/-- One xorshift32 step on the unsigned 32-bit view of the state (the JS
`s ^= s << 13; s ^= s >>> 17; s ^= s << 5` on int32, read back via
`s >>> 0`). -/
def xorshift32 (s : ℕ) : ℕ :=
  let s1 := (s ^^^ (s <<< 13)) % 4294967296
  let s2 := s1 ^^^ (s1 >>> 17)
  (s2 ^^^ (s2 <<< 5)) % 4294967296

/-- One `rand()` of `seededShuffle`: the new state and `(s >>> 0) / 0xffffffff`. -/
def shuffleRand (s : ℕ) : ℕ × ℚ :=
  let s1 := xorshift32 s
  (s1, (s1 : ℚ) / 4294967295)

/-- `[arr[i], arr[j]] = [arr[j], arr[i]]`. -/
def listSwap {α : Type} (l : List α) (i j : ℕ) : List α :=
  match l.get? i, l.get? j with
  | some x, some y => (l.set i y).set j x
  | _, _ => l

/-- The Fisher–Yates loop of `seededShuffle`, indexed by the loop counter
(from `arr.length - 1` down to 1). -/
def shuffleStep {α : Type} : List α → ℕ → ℕ → List α × ℕ
  | arr, s, 0 => (arr, s)
  | arr, s, i+1 =>
    let p := shuffleRand s
    let j := (Int.floor (p.2 * ((i + 2 : ℕ) : ℚ))).toNat
    shuffleStep (listSwap arr (i+1) j) p.1 i

/-- `seededShuffle` from part_002 (identical in both implementations):
initial state `seed || 0x9e3779b1`. -/
def seededShuffle {α : Type} (arr : List α) (seed : ℕ) : List α :=
  let s0 := if seed = 0 then 2654435761 else seed
  (shuffleStep arr s0 (arr.length - 1)).1

/-- The metric-dependent point-to-centroid distance:
`1 - Math.max(-1, Math.min(1, dot))` under cosine, squared L2 otherwise. -/
noncomputable def kmDist (metric : Metric) (a b : Vec) : ℝ :=
  match metric with
  | .cosine => 1 - max (-1) (min 1 (dot a b))
  | .l2 => l2Dist2 a b

/-- The inner argmin loop of the assign step (`best`/`bestScore`, strict
improvement, first index kept on ties). -/
noncomputable def bestIndexAux : List ℝ → ℕ → ℕ → ℝ → ℕ
  | [], _, best, _ => best
  | sc :: rest, idx, best, bestScore =>
    if sc < bestScore then bestIndexAux rest (idx + 1) idx sc
    else bestIndexAux rest (idx + 1) best bestScore

/-- `best` after scanning all centroids (initial `bestScore = Infinity`
means the first centroid always wins the first comparison). -/
noncomputable def bestIndex (scores : List ℝ) : ℕ :=
  match scores with
  | [] => 0
  | sc :: rest => bestIndexAux rest 1 0 sc

/-- Elementwise sum of vectors onto a zero vector of dimension `dim`
(the `sums[c]` accumulators). -/
noncomputable def vsum (vs : List Vec) (dim : ℕ) : Vec :=
  vs.foldl (fun acc v => List.zipWith (fun x y => x + y) acc v)
    (List.replicate dim (0 : ℝ))

/-- The update step: each cluster that received points gets the mean of its
points (renormalized under cosine); an empty cluster keeps its previous
centroid.  The source accumulates `sums`/`counts` in one pass over the data;
filtering the data per cluster computes the same sums. -/
noncomputable def clusterUpdate (metric : Metric) (normalize : Vec → Vec)
    (data : List Vec) (assign : List ℕ) (K : ℕ) (old : List Vec) : List Vec :=
  (List.range K).map (fun c =>
    let members := ((data.zip assign).filter (fun p => p.2 = c)).map Prod.fst
    if members.length = 0 then old.getD c []
    else
      let dim := (data.headD []).length
      let mean := (vsum members dim).map (fun x => x / (members.length : ℝ))
      match metric with
      | .cosine => normalize mean
      | .l2 => mean)

/-- The Lloyd iteration shared by both implementations: assign, then update,
then stop early when no assignment changed (the update still runs on the
final iteration, as in the source). -/
noncomputable def kmLoop (metric : Metric) (normalize : Vec → Vec)
    (data : List Vec) (K : ℕ) : ℕ → List ℕ → List Vec → List ℕ × List Vec
  | 0, assign, cents => (assign, cents)
  | it+1, assign, cents =>
    let newAssign := data.map
      (fun v => bestIndex (cents.map (fun ctr => kmDist metric v ctr)))
    let newCents := clusterUpdate metric normalize data newAssign K cents
    if newAssign = assign then (newAssign, newCents)
    else kmLoop metric normalize data K it newAssign newCents

/-- The common body of both `kMeans` implementations, parameterized by the
`normalizeInPlace` variant: preprocess (normalized clones under cosine),
pick `K` initial centroids via the seeded shuffle, init assignments to 0,
iterate. -/
noncomputable def kMeansCore (normalize : Vec → Vec) (vectors : List Vec)
    (K : ℕ) (metric : Metric) (maxIters : ℕ) (seed : ℕ) : List ℕ × List Vec :=
  let data := match metric with
    | .cosine => vectors.map normalize
    | .l2 => vectors
  let idxs := seededShuffle (List.range vectors.length) seed
  let centroids := (List.range K).map (fun i => data.getD (idxs.getD i 0) [])
  let assign := List.replicate vectors.length (0 : ℕ)
  kmLoop metric normalize data K maxIters assign centroids

namespace ClusterFst

/-- `average` from the first implementation (part_002 lines 124–139). -/
noncomputable def average (vs : List Vec) : Vec :=
  let d := (vs.headD []).length
  if vs.length = 0 then List.replicate d (0 : ℝ)
  else (vsum vs d).map (fun x => x / (vs.length : ℝ))

/-- The first `kMeans` of part_002 (lines 37–122): guards `N = 0 ∨ K ≤ 1`,
clamps `K` to `N`, and uses the `n || 1e-12` normalization. -/
noncomputable def kMeans (vectors : List Vec) (K : ℕ) (metric : Metric)
    (maxIters : ℕ) (seed : ℕ) : List ℕ × List Vec :=
  if vectors.length = 0 ∨ K ≤ 1 then
    (List.replicate vectors.length 0,
      [average (if vectors.length ≠ 0 then vectors else [[]])])
  else kMeansCore normalizeFst vectors (min K vectors.length) metric maxIters seed

end ClusterFst

namespace ClusterSnd

/-- The second `kMeans` of part_002 (lines 206–311): no guard, no clamp, and
the `Math.max(n, 1e-12)` normalization. -/
noncomputable def kMeans (vectors : List Vec) (K : ℕ) (metric : Metric)
    (maxIters : ℕ) (seed : ℕ) : List ℕ × List Vec :=
  kMeansCore normalizeSnd vectors K metric maxIters seed

end ClusterSnd

theorem listSwap_pair {α : Type} (a b : α) :
    ∀ j, listSwap [a, b] 1 j = [a, b] ∨ listSwap [a, b] 1 j = [b, a] := by
  intro j
  match j with
  | 0 => right; simp [listSwap]
  | 1 => left; simp [listSwap]
  | n+2 => left; simp [listSwap]

theorem shuffle_pair {α : Type} (a b : α) (seed : ℕ) :
    seededShuffle [a, b] seed = [a, b] ∨ seededShuffle [a, b] seed = [b, a] := by
  unfold seededShuffle
  simp only [List.length_cons, List.length_nil]
  exact listSwap_pair a b _

theorem kmLoop_l2_normalize_irrel (n1 n2 : Vec → Vec) (data : List Vec) (K : ℕ) :
    ∀ (fuel : ℕ) (assign : List ℕ) (cents : List Vec),
      kmLoop Metric.l2 n1 data K fuel assign cents
        = kmLoop Metric.l2 n2 data K fuel assign cents := by
  intro fuel
  induction fuel with
  | zero => intro assign cents; rfl
  | succ it ih =>
    intro assign cents
    show (if _ = assign then _ else kmLoop Metric.l2 n1 data K it _ _) = _
    have hupd : clusterUpdate Metric.l2 n1 data
        (data.map (fun v => bestIndex (cents.map (fun ctr => kmDist Metric.l2 v ctr))))
        K cents
      = clusterUpdate Metric.l2 n2 data
        (data.map (fun v => bestIndex (cents.map (fun ctr => kmDist Metric.l2 v ctr))))
        K cents := rfl
    by_cases hch : data.map
        (fun v => bestIndex (cents.map (fun ctr => kmDist Metric.l2 v ctr))) = assign
    · rw [if_pos hch]
      show _ = (if _ = assign then _ else _)
      rw [if_pos hch, hupd]
    · rw [if_neg hch]
      show _ = (if _ = assign then _ else _)
      rw [if_neg hch, hupd]
      exact ih _ _

theorem kMeansCore_l2_normalize_irrel (n1 n2 : Vec → Vec) (vectors : List Vec)
    (K maxIters seed : ℕ) :
    kMeansCore n1 vectors K Metric.l2 maxIters seed
      = kMeansCore n2 vectors K Metric.l2 maxIters seed := by
  unfold kMeansCore
  exact kmLoop_l2_normalize_irrel n1 n2 vectors K maxIters _ _

/-- C10 (amended, positive part): under the Euclidean metric the two
implementations return identical assignments and centroids for every
non-empty vector list with `2 ≤ K ≤ N` and the same `maxIterations` and
seed (the first implementation's guard and clamp are inactive there, and
the differing normalization fallback is never invoked). -/
theorem kMeans_l2_agree (vectors : List Vec) (K maxIters seed : ℕ)
    (hK : 2 ≤ K) (hKN : K ≤ vectors.length) :
    ClusterFst.kMeans vectors K Metric.l2 maxIters seed
      = ClusterSnd.kMeans vectors K Metric.l2 maxIters seed := by
  unfold ClusterFst.kMeans ClusterSnd.kMeans
  rw [if_neg (by
    push_neg
    constructor
    · omega
    · omega)]
  rw [min_eq_left hKN]
  exact kMeansCore_l2_normalize_irrel normalizeFst normalizeSnd vectors K maxIters seed

/-- C10 witness for the amended claim, at a concrete input. -/
theorem kMeans_l2_agree_witness :
    ClusterFst.kMeans [[(0 : ℝ)], [1]] 2 Metric.l2 20 42
      = ClusterSnd.kMeans [[(0 : ℝ)], [1]] 2 Metric.l2 20 42 :=
  kMeans_l2_agree [[(0 : ℝ)], [1]] 2 20 42 (by norm_num) (by norm_num)

theorem dot_single (x : ℝ) : dot [x] [x] = x * x := by
  simp [dot]

theorem vnorm_tiny : vnorm [(1e-20 : ℝ)] = 1e-20 := by
  unfold vnorm
  rw [dot_single, show ((1e-20 : ℝ) * 1e-20) = (1e-20) ^ 2 by ring,
    Real.sqrt_sq (by norm_num)]

theorem vnorm_one : vnorm [(1 : ℝ)] = 1 := by
  unfold vnorm
  rw [dot_single, show ((1 : ℝ) * 1) = 1 by ring, Real.sqrt_one]

theorem normalizeFst_tiny : normalizeFst [(1e-20 : ℝ)] = [1] := by
  simp only [normalizeFst, vnorm_tiny]
  rw [if_neg (by norm_num)]
  norm_num

theorem normalizeFst_one : normalizeFst [(1 : ℝ)] = [1] := by
  simp only [normalizeFst, vnorm_one]
  rw [if_neg (by norm_num)]
  norm_num

theorem normalizeSnd_tiny : normalizeSnd [(1e-20 : ℝ)] = [1e-8] := by
  simp only [normalizeSnd, vnorm_tiny]
  rw [max_eq_right (by norm_num : (1e-20 : ℝ) ≤ 1e-12)]
  norm_num

theorem normalizeSnd_one : normalizeSnd [(1 : ℝ)] = [1] := by
  simp only [normalizeSnd, vnorm_one]
  rw [max_eq_left (by norm_num : (1e-12 : ℝ) ≤ 1)]
  norm_num

/-- C10 counterexample: for the valid input `[[1e-20], [1]]` with `K = 2`
(2 ≤ K ≤ N), the cosine metric and equal `maxIterations` and seed, the two
implementations return different centroids: the vector of positive norm
`1e-20 < 1e-12` normalizes to `[1]` under the first implementation's
`n || 1e-12` fallback but to `[1e-8]` under the second's `max(n, 1e-12)`. -/
theorem kMeans_impls_differ_cex :
    ClusterFst.kMeans [[(1e-20 : ℝ)], [1]] 2 Metric.cosine 0 42
      ≠ ClusterSnd.kMeans [[(1e-20 : ℝ)], [1]] 2 Metric.cosine 0 42 := by
  have hFst : ClusterFst.kMeans [[(1e-20 : ℝ)], [1]] 2 Metric.cosine 0 42
      = kMeansCore normalizeFst [[(1e-20 : ℝ)], [1]] 2 Metric.cosine 0 42 := by
    unfold ClusterFst.kMeans
    rw [if_neg (by norm_num)]
    norm_num
  have hrange : List.range 2 = [0, 1] := by decide
  rcases shuffle_pair (0 : ℕ) 1 42 with hidx | hidx
  · have hA : kMeansCore normalizeFst [[(1e-20 : ℝ)], [1]] 2 Metric.cosine 0 42
        = (List.replicate 2 0, [[1], [1]]) := by
      unfold kMeansCore kmLoop
      simp [hrange, hidx, normalizeFst_tiny, normalizeFst_one, List.range_succ]
    have hB : ClusterSnd.kMeans [[(1e-20 : ℝ)], [1]] 2 Metric.cosine 0 42
        = (List.replicate 2 0, [[1e-8], [1]]) := by
      unfold ClusterSnd.kMeans kMeansCore kmLoop
      simp [hrange, hidx, normalizeSnd_tiny, normalizeSnd_one, List.range_succ]
    rw [hFst, hA, hB]
    intro h
    simp only [Prod.mk.injEq, List.cons.injEq] at h
    have := h.2.1.1
    norm_num at this
  · have hA : kMeansCore normalizeFst [[(1e-20 : ℝ)], [1]] 2 Metric.cosine 0 42
        = (List.replicate 2 0, [[1], [1]]) := by
      unfold kMeansCore kmLoop
      simp [hrange, hidx, normalizeFst_tiny, normalizeFst_one, List.range_succ]
    have hB : ClusterSnd.kMeans [[(1e-20 : ℝ)], [1]] 2 Metric.cosine 0 42
        = (List.replicate 2 0, [[1], [1e-8]]) := by
      unfold ClusterSnd.kMeans kMeansCore kmLoop
      simp [hrange, hidx, normalizeSnd_tiny, normalizeSnd_one, List.range_succ]
    rw [hFst, hA, hB]
    intro h
    simp only [Prod.mk.injEq, List.cons.injEq] at h
    have := h.2.2.1.1
    norm_num at this

/-! ### Data partitioner (`partition.ts`): the index-selection core of
`makeClientsFromXY`.

The examples themselves never move: the function selects example *indices*
for each client by consuming, class by class, the shuffled per-class index
pools (`byClass[cl][classPtrs[cl]++]`).  Each client's `size` is the length
of its index list; grouping a client's indices into `batchSize`-sized
mini-batches does not change that list.  The seeded per-class shuffles, the
random rotation, the Dirichlet-derived target sizes and class mixtures, and
the uniform draws feeding `pickClass` all come from RNG (partly
transcendental Gamma sampling), so they are explicit inputs here; the
claims are proved for every value they can take. -/

/-- `byClass`: example indices grouped by class label, in input order
(before the per-class shuffle). -/
def groupByClass (y : List ℕ) (numClasses : ℕ) : List (List ℕ) :=
  (List.range numClasses).map
    (fun c => (List.range y.length).filter (fun i => y.getD i 0 = c))

/-- Consume the next unconsumed index of class `c`
(`byClass[cl][classPtrs[cl]++]`, pools as queues). -/
def popClass (pools : List (List ℕ)) (c : ℕ) : Option (ℕ × List (List ℕ)) :=
  match pools.getD c [] with
  | [] => none
  | x :: rest => some (x, pools.set c rest)

/-- Total number of unconsumed indices across all classes. -/
def poolSum (pools : List (List ℕ)) : ℕ := (pools.map List.length).sum

/-- The inner `while (tries < numClasses && exhausted)` scan of the reserve
step (partition.ts lines 174–178): advance the rotation past exhausted
classes, at most `tries` times. -/
def scanRot (pools : List (List ℕ)) (numClasses : ℕ) : ℕ → ℕ → ℕ
  | rot, 0 => rot
  | rot, tries+1 =>
    if (pools.getD (rot % numClasses) []).isEmpty then
      scanRot pools numClasses (rot + 1) tries
    else rot

/-- The reserve loop when `total >= numClients` (lines 171–184): one index
per client, round-robin over classes from the rotation. -/
def reserveLoop (numClasses : ℕ) :
    ℕ → ℕ → List (List ℕ) → List (List ℕ) → List (List ℕ) × List (List ℕ)
  | 0, _, pools, acc => (acc.reverse, pools)
  | n+1, rot, pools, acc =>
    let rot1 := scanRot pools numClasses rot numClasses
    let cl := rot1 % numClasses
    match popClass pools cl with
    | some p => reserveLoop numClasses n (rot1 + 1) p.2 ([p.1] :: acc)
    | none => reserveLoop numClasses n (rot1 + 1) pools ([] :: acc)

/-- The inner `for (t = 0; t < numClasses; t++)` of the scarce branch
(lines 188–197): the first available class from the rotation. -/
def findAvail (pools : List (List ℕ)) (numClasses rot : ℕ) : Option ℕ :=
  (List.range numClasses).findSome?
    (fun t => if (pools.getD ((rot + t) % numClasses) []).isEmpty then none
              else some ((rot + t) % numClasses))

/-- The reserve loop when `total < numClients` (lines 186–197): hand out
the remaining `left` examples as singletons; once they run out the
remaining clients keep their empty initial lists. -/
def reserveScarce (numClasses : ℕ) :
    ℕ → ℕ → ℕ → List (List ℕ) → List (List ℕ) → List (List ℕ) × List (List ℕ)
  | 0, _, _, pools, acc => (acc.reverse, pools)
  | n+1, left, rot, pools, acc =>
    if left = 0 then (acc.reverse ++ List.replicate (n+1) [], pools)
    else
      match findAvail pools numClasses rot with
      | some cl =>
        match popClass pools cl with
        | some p => reserveScarce numClasses n (left - 1) (rot + 1) p.2 ([p.1] :: acc)
        | none => reserveScarce numClasses n left (rot + 1) pools ([] :: acc)
      | none => reserveScarce numClasses n left (rot + 1) pools ([] :: acc)

/-- The accumulating scan of `pickClass` over the classes (lines 270–276). -/
def pickScan (prob : List ℚ) (avail : List Bool) (r : ℚ) :
    List ℕ → ℚ → Option ℕ
  | [], _ => none
  | c :: cs, acc =>
    if avail.getD c false then
      let acc1 := acc + prob.getD c 0
      if r ≤ acc1 then some c else pickScan prob avail r cs acc1
    else pickScan prob avail r cs acc

/-- `pickClass` (lines 260–280): a multinomial pick respecting class
availability, uniform over the available classes when the available mass is
non-positive, scanning descending as a final fallback, `-1` when no class
is available.  Consumes exactly one uniform draw `u`. -/
def pickClass (numClasses : ℕ) (prob : List ℚ) (avail : List Bool) (u : ℚ) : Int :=
  let totalProb := ((List.range numClasses).map
    (fun c => if avail.getD c false then prob.getD c 0 else 0)).sum
  if totalProb ≤ 0 then
    let availIdx := (List.range numClasses).filter (fun c => avail.getD c false)
    if availIdx.isEmpty then -1
    else ((availIdx.getD (Int.toNat (Int.floor (u * availIdx.length))) 0 : ℕ) : Int)
  else
    match pickScan prob avail (u * totalProb) (List.range numClasses) 0 with
    | some c => (c : Int)
    | none =>
      match (List.range numClasses).reverse.find? (fun c => avail.getD c false) with
      | some c => (c : Int)
      | none => -1

/-- The per-client fill loop (lines 292–305): while more examples are
needed and some class still has unconsumed indices, pick a class from the
client's mixture `prob` and consume its next index.  Consumes one uniform
draw per iteration; returns the index list, the pools, and the remaining
draws. -/
def fillLoop (numClasses : ℕ) (prob : List ℚ) :
    ℕ → List (List ℕ) → List ℚ → List ℕ → List ℕ × List (List ℕ) × List ℚ
  | 0, pools, us, acc => (acc, pools, us)
  | need+1, pools, us, acc =>
    let avail := (List.range numClasses).map (fun c => !(pools.getD c []).isEmpty)
    if avail.all (fun b => !b) then (acc, pools, us)
    else
      let u := us.headD 0
      let us1 := us.tail
      match pickClass numClasses prob avail u with
      | Int.ofNat cl =>
        match popClass pools cl with
        | some p => fillLoop numClasses prob need p.2 us1 (acc ++ [p.1])
        | none => (acc, pools, us1)
      | Int.negSucc _ => (acc, pools, us1)

/-- Step 3 of `makeClientsFromXY` (lines 283–328): each client starts from
its reserved indices and fills up to its target size
(`need = max(0, target - idxs.length)`, natural subtraction). -/
def buildClients (numClasses : ℕ) :
    List (List ℕ) → List ℕ → List (List ℚ) → List (List ℕ) → List ℚ →
      List (List ℕ)
  | [], _, _, _, _ => []
  | init :: inits, targets, probs, pools, us =>
    let r := fillLoop numClasses (probs.headD []) (targets.headD 0 - init.length)
      pools us init
    r.1 :: buildClients numClasses inits targets.tail probs.tail r.2.1 r.2.2

/-- The index-selection core of `makeClientsFromXY`: reserve one example per
client when possible, then fill each client to its target size.
`shuffledByClass` is `byClass` after the seeded within-class shuffles;
`targets` are the step-2 client sizes; `probs` the per-client Dirichlet
class mixtures; `us` the uniform stream feeding `pickClass`. -/
def makeClientsFromXY (y : List ℕ) (numClasses numClients : ℕ)
    (shuffledByClass : List (List ℕ)) (rot0 : ℕ) (targets : List ℕ)
    (probs : List (List ℚ)) (us : List ℚ) : List (List ℕ) :=
  let total := y.length
  let r := if numClients ≤ total
    then reserveLoop numClasses numClients rot0 shuffledByClass []
    else reserveScarce numClasses numClients total rot0 shuffledByClass []
  buildClients numClasses r.1 targets probs r.2 us

theorem poolSum_set : ∀ (pools : List (List ℕ)) (c : ℕ) (x : ℕ) (rest : List ℕ),
    pools.getD c [] = x :: rest →
    poolSum (pools.set c rest) + 1 = poolSum pools ∧
      (pools.set c rest).length = pools.length := by
  intro pools
  induction pools with
  | nil => intro c x rest h; simp at h
  | cons p ps ih =>
    intro c x rest h
    cases c with
    | zero =>
      simp only [List.getD_cons_zero] at h
      subst h
      simp [poolSum]
      omega
    | succ n =>
      simp only [List.getD_cons_succ] at h
      obtain ⟨h1, h2⟩ := ih n x rest h
      rw [show ((p :: ps).set (n + 1) rest) = p :: ps.set n rest from rfl]
      simp only [poolSum, List.map_cons, List.sum_cons, List.length_cons] at *
      omega

theorem popClass_some (pools : List (List ℕ)) (c : ℕ) (p : ℕ × List (List ℕ))
    (h : popClass pools c = some p) :
    poolSum p.2 + 1 = poolSum pools ∧ p.2.length = pools.length := by
  unfold popClass at h
  cases hg : pools.getD c [] with
  | nil => rw [hg] at h; simp at h
  | cons x rest =>
    rw [hg] at h
    simp only [Option.some.injEq] at h
    rw [← h]
    exact poolSum_set pools c x rest hg

theorem popClass_none (pools : List (List ℕ)) (c : ℕ)
    (h : popClass pools c = none) : pools.getD c [] = [] := by
  unfold popClass at h
  cases hg : pools.getD c [] with
  | nil => rfl
  | cons x rest => rw [hg] at h; simp at h

theorem fillLoop_conserve (numClasses : ℕ) (prob : List ℚ) :
    ∀ (need : ℕ) (pools : List (List ℕ)) (us : List ℚ) (acc : List ℕ),
      (fillLoop numClasses prob need pools us acc).1.length
          + poolSum (fillLoop numClasses prob need pools us acc).2.1
        = acc.length + poolSum pools := by
  intro need
  induction need with
  | zero => intro pools us acc; rfl
  | succ n ih =>
    intro pools us acc
    simp only [fillLoop]
    by_cases hall : (((List.range numClasses).map
        (fun c => !(pools.getD c []).isEmpty)).all (fun b => !b)) = true
    · rw [if_pos hall]
    · rw [if_neg hall]
      cases hpick : pickClass numClasses prob
          ((List.range numClasses).map (fun c => !(pools.getD c []).isEmpty))
          (us.headD 0) with
      | ofNat cl =>
        cases hpop : popClass pools cl with
        | none => simp only [hpop]
        | some p =>
          simp only [hpop]
          have h1 := (popClass_some pools cl p hpop).1
          have h2 := ih p.2 us.tail (acc ++ [p.1])
          simp only [List.length_append, List.length_cons, List.length_nil] at h2
          omega
      | negSucc k => rfl

theorem buildClients_conserve (numClasses : ℕ) :
    ∀ (inits : List (List ℕ)) (targets : List ℕ) (probs : List (List ℚ))
      (pools : List (List ℕ)) (us : List ℚ),
      ((buildClients numClasses inits targets probs pools us).map List.length).sum
        ≤ (inits.map List.length).sum + poolSum pools := by
  intro inits
  induction inits with
  | nil => intro targets probs pools us; simp [buildClients]
  | cons init inits ih =>
    intro targets probs pools us
    simp only [buildClients, List.map_cons, List.sum_cons]
    have h1 := fillLoop_conserve numClasses (probs.headD [])
      (targets.headD 0 - init.length) pools us init
    have h2 := ih targets.tail probs.tail
      (fillLoop numClasses (probs.headD []) (targets.headD 0 - init.length)
        pools us init).2.1
      (fillLoop numClasses (probs.headD []) (targets.headD 0 - init.length)
        pools us init).2.2
    omega

theorem reserveLoop_conserve (numClasses : ℕ) :
    ∀ (n : ℕ) (rot : ℕ) (pools acc : List (List ℕ)),
      ((reserveLoop numClasses n rot pools acc).1.map List.length).sum
          + poolSum (reserveLoop numClasses n rot pools acc).2
        = (acc.map List.length).sum + poolSum pools ∧
      (reserveLoop numClasses n rot pools acc).2.length = pools.length := by
  intro n
  induction n with
  | zero =>
    intro rot pools acc
    simp [reserveLoop, List.map_reverse, List.sum_reverse]
  | succ k ih =>
    intro rot pools acc
    simp only [reserveLoop]
    split
    next p hpop =>
      obtain ⟨hp1, hp2⟩ := popClass_some pools _ p hpop
      obtain ⟨h1, h2⟩ := ih ((scanRot pools numClasses rot numClasses) + 1)
        p.2 ([p.1] :: acc)
      simp only [List.map_cons, List.sum_cons, List.length_cons,
        List.length_nil] at h1
      exact ⟨by omega, by omega⟩
    next hpop =>
      obtain ⟨h1, h2⟩ := ih ((scanRot pools numClasses rot numClasses) + 1)
        pools ([] :: acc)
      simp only [List.map_cons, List.sum_cons, List.length_nil] at h1
      exact ⟨by omega, h2⟩

theorem reserveScarce_conserve (numClasses : ℕ) :
    ∀ (n : ℕ) (left rot : ℕ) (pools acc : List (List ℕ)),
      ((reserveScarce numClasses n left rot pools acc).1.map List.length).sum
          + poolSum (reserveScarce numClasses n left rot pools acc).2
        = (acc.map List.length).sum + poolSum pools := by
  intro n
  induction n with
  | zero =>
    intro left rot pools acc
    simp [reserveScarce, List.map_reverse, List.sum_reverse]
  | succ k ih =>
    intro left rot pools acc
    simp only [reserveScarce]
    by_cases hl : left = 0
    · rw [if_pos hl]
      simp [List.map_reverse, List.sum_reverse, List.sum_replicate]
    · rw [if_neg hl]
      split
      next cl hfind =>
        split
        next p hpop =>
          have hp1 := (popClass_some pools cl p hpop).1
          have h1 := ih (left - 1) (rot + 1) p.2 ([p.1] :: acc)
          simp only [List.map_cons, List.sum_cons, List.length_cons,
            List.length_nil] at h1
          omega
        next hpop =>
          have h1 := ih left (rot + 1) pools ([] :: acc)
          simp only [List.map_cons, List.sum_cons, List.length_nil] at h1
          omega
      next hfind =>
        have h1 := ih left (rot + 1) pools ([] :: acc)
        simp only [List.map_cons, List.sum_cons, List.length_nil] at h1
        omega

theorem sum_map_add_nat {beta : Type _} (f g : beta → ℕ) : ∀ (l : List beta),
    (l.map (fun c => f c + g c)).sum = (l.map f).sum + (l.map g).sum := by
  intro l
  induction l with
  | nil => simp
  | cons a t ih =>
    simp only [List.map_cons, List.sum_cons, ih]
    omega

theorem sum_ite_range_zero : ∀ (nc fi : ℕ), nc ≤ fi →
    ((List.range nc).map (fun c => if fi = c then 1 else 0)).sum = 0 := by
  intro nc
  induction nc with
  | zero => intro fi _; simp
  | succ n ih =>
    intro fi hfi
    rw [List.range_succ]
    simp only [List.map_append, List.sum_append, List.map_cons, List.map_nil,
      List.sum_cons, List.sum_nil]
    rw [ih fi (by omega), if_neg (by omega)]
    omega

theorem sum_ite_range_one : ∀ (nc fi : ℕ), fi < nc →
    ((List.range nc).map (fun c => if fi = c then 1 else 0)).sum = 1 := by
  intro nc
  induction nc with
  | zero => intro fi hfi; omega
  | succ n ih =>
    intro fi hfi
    rw [List.range_succ]
    simp only [List.map_append, List.sum_append, List.map_cons, List.map_nil,
      List.sum_cons, List.sum_nil]
    by_cases h : fi = n
    · rw [if_pos h, sum_ite_range_zero n fi (by omega)]
      omega
    · rw [if_neg h, ih fi (by omega)]
      omega

theorem filter_count (nc : ℕ) : ∀ (L : List ℕ) (f : ℕ → ℕ),
    (∀ i ∈ L, f i < nc) →
    ((List.range nc).map (fun c => (L.filter (fun i => f i = c)).length)).sum
      = L.length := by
  intro L
  induction L with
  | nil => intro f _; simp
  | cons i L ih =>
    intro f hf
    have hstep : ∀ c, ((i :: L).filter (fun j => f j = c)).length
        = (if f i = c then 1 else 0) + (L.filter (fun j => f j = c)).length := by
      intro c
      rw [List.filter_cons]
      by_cases h : f i = c
      · rw [if_pos (by simpa using h), if_pos h]
        simp only [List.length_cons]
        omega
      · rw [if_neg (by simpa using h), if_neg h]
        simp
    rw [List.map_congr_left (fun c _ => hstep c), sum_map_add_nat,
      sum_ite_range_one nc (f i) (hf i (List.mem_cons_self i L)),
      ih f (fun j hj => hf j (List.mem_cons_of_mem i hj))]
    simp only [List.length_cons]
    omega

theorem poolSum_groupByClass (y : List ℕ) (nc : ℕ) (hy : ∀ l ∈ y, l < nc) :
    poolSum (groupByClass y nc) = y.length := by
  unfold poolSum groupByClass
  rw [List.map_map]
  simp only [Function.comp_def]
  rw [filter_count nc (List.range y.length) (fun i => y.getD i 0) (by
    intro i hi
    have hi1 : i < y.length := List.mem_range.mp hi
    show y.getD i 0 < nc
    rw [List.getD_eq_getElem y 0 hi1]
    exact hy _ (List.getElem_mem hi1))]
  exact List.length_range y.length

theorem poolSum_forall₂_perm : ∀ (a b : List (List ℕ)),
    List.Forall₂ List.Perm a b → poolSum a = poolSum b := by
  intro a b h
  induction h with
  | nil => rfl
  | cons hp _ ih =>
    simp only [poolSum, List.map_cons, List.sum_cons] at *
    rw [hp.length_eq, ih]

theorem exists_nonempty_class : ∀ (pools : List (List ℕ)), 0 < poolSum pools →
    ∃ c, c < pools.length ∧ pools.getD c [] ≠ [] := by
  intro pools
  induction pools with
  | nil => intro h; simp [poolSum] at h
  | cons p ps ih =>
    intro h
    by_cases hp : p = []
    · have : 0 < poolSum ps := by
        simp only [poolSum, List.map_cons, List.sum_cons, hp] at h ⊢
        simpa using h
      obtain ⟨c, hc, hne⟩ := ih this
      exact ⟨c + 1, by simpa using hc, by simpa using hne⟩
    · exact ⟨0, by simp, by simpa using hp⟩

theorem exists_rot_hit (nc rot c : ℕ) (hc : c < nc) :
    ∃ t, t < nc ∧ (rot + t) % nc = c := by
  have hnc : 0 < nc := by omega
  have hm : rot % nc < nc := Nat.mod_lt rot hnc
  by_cases h : rot % nc ≤ c
  · refine ⟨c - rot % nc, by omega, ?_⟩
    rw [Nat.add_mod, Nat.mod_eq_of_lt (show c - rot % nc < nc by omega),
      show rot % nc + (c - rot % nc) = c by omega, Nat.mod_eq_of_lt hc]
  · refine ⟨c + nc - rot % nc, by omega, ?_⟩
    rw [Nat.add_mod, Nat.mod_eq_of_lt (show c + nc - rot % nc < nc by omega),
      show rot % nc + (c + nc - rot % nc) = c + nc by omega]
    rw [Nat.add_mod_right, Nat.mod_eq_of_lt hc]

theorem scanRot_hits (pools : List (List ℕ)) (nc : ℕ) :
    ∀ (tries rot : ℕ), (∃ t, t < tries ∧ pools.getD ((rot + t) % nc) [] ≠ []) →
    pools.getD ((scanRot pools nc rot tries) % nc) [] ≠ [] := by
  intro tries
  induction tries with
  | zero =>
    intro rot h
    obtain ⟨t, ht, _⟩ := h
    omega
  | succ tr ih =>
    intro rot h
    obtain ⟨t, ht, hne⟩ := h
    simp only [scanRot]
    by_cases hemp : (pools.getD (rot % nc) []).isEmpty = true
    · rw [if_pos hemp]
      have ht0 : t ≠ 0 := by
        intro h0
        rw [h0, Nat.add_zero] at hne
        exact hne (List.isEmpty_iff.mp hemp)
      obtain ⟨t1, rfl⟩ : ∃ t1, t = t1 + 1 := ⟨t - 1, by omega⟩
      exact ih (rot + 1) ⟨t1, by omega, by
        rw [show rot + 1 + t1 = rot + (t1 + 1) by omega]
        exact hne⟩
    · rw [if_neg hemp]
      intro hcontr
      exact hemp (by rw [hcontr]; rfl)

theorem reserveLoop_nonempty (nc : ℕ) :
    ∀ (n rot : ℕ) (pools acc : List (List ℕ)),
      pools.length = nc → n ≤ poolSum pools → (∀ e ∈ acc, e ≠ []) →
      ∀ e ∈ (reserveLoop nc n rot pools acc).1, e ≠ [] := by
  intro n
  induction n with
  | zero =>
    intro rot pools acc _ _ hacc e he
    simp only [reserveLoop, List.mem_reverse] at he
    exact hacc e he
  | succ k ih =>
    intro rot pools acc hlen hk hacc
    have hpos : 0 < poolSum pools := by omega
    obtain ⟨c, hc, hcne⟩ := exists_nonempty_class pools hpos
    rw [hlen] at hc
    obtain ⟨t, htnc, hteq⟩ := exists_rot_hit nc rot c hc
    have hscan : pools.getD ((scanRot pools nc rot nc) % nc) [] ≠ [] :=
      scanRot_hits pools nc nc rot ⟨t, htnc, by rw [hteq]; exact hcne⟩
    simp only [reserveLoop]
    split
    next p hpop =>
      obtain ⟨hp1, hp2⟩ := popClass_some pools _ p hpop
      refine ih _ p.2 ([p.1] :: acc) (hp2.trans hlen) (by omega) ?_
      intro e he
      rcases List.mem_cons.mp he with h | h
      · rw [h]; simp
      · exact hacc e h
    next hpop =>
      exact absurd (popClass_none pools _ hpop) hscan

theorem fillLoop_nonempty (nc : ℕ) (prob : List ℚ) :
    ∀ (need : ℕ) (pools : List (List ℕ)) (us : List ℚ) (acc : List ℕ),
      acc ≠ [] → (fillLoop nc prob need pools us acc).1 ≠ [] := by
  intro need
  induction need with
  | zero => intro pools us acc hacc; exact hacc
  | succ n ih =>
    intro pools us acc hacc
    simp only [fillLoop]
    by_cases hall : (((List.range nc).map
        (fun c => !(pools.getD c []).isEmpty)).all (fun b => !b)) = true
    · rw [if_pos hall]; exact hacc
    · rw [if_neg hall]
      split
      next cl _ =>
        split
        next p _ =>
          exact ih p.2 us.tail (acc ++ [p.1]) (by simp)
        next => exact hacc
      next => exact hacc

theorem buildClients_nonempty (nc : ℕ) :
    ∀ (inits : List (List ℕ)) (targets : List ℕ) (probs : List (List ℚ))
      (pools : List (List ℕ)) (us : List ℚ),
      (∀ i ∈ inits, i ≠ []) →
      ∀ e ∈ buildClients nc inits targets probs pools us, e ≠ [] := by
  intro inits
  induction inits with
  | nil => intro targets probs pools us _ e he; simp [buildClients] at he
  | cons init inits ih =>
    intro targets probs pools us hinit e he
    simp only [buildClients, List.mem_cons] at he
    rcases he with h | h
    · rw [h]
      exact fillLoop_nonempty nc (probs.headD [])
        (targets.headD 0 - init.length) pools us init
        (hinit init (List.mem_cons_self init inits))
    · exact ih targets.tail probs.tail _ _
        (fun i hi => hinit i (List.mem_cons_of_mem init hi)) e h

theorem forall₂_perm_refl : ∀ (l : List (List ℕ)), List.Forall₂ List.Perm l l := by
  intro l
  induction l with
  | nil => exact List.Forall₂.nil
  | cons a t ih => exact List.Forall₂.cons (List.Perm.refl a) ih

/-- C4: for every dataset with valid labels, every client count, every
within-class shuffling, every rotation, target sizes, class mixtures and
uniform draws: the per-client example counts sum to at most the number of
source examples, and when that number is at least `numClients`, every
client receives at least one example. -/
theorem makeClientsFromXY_sizes (y : List ℕ) (numClasses numClients : ℕ)
    (shuffledByClass : List (List ℕ)) (rot0 : ℕ) (targets : List ℕ)
    (probs : List (List ℚ)) (us : List ℚ)
    (hy : ∀ l ∈ y, l < numClasses)
    (hsh : List.Forall₂ List.Perm shuffledByClass (groupByClass y numClasses)) :
    (((makeClientsFromXY y numClasses numClients shuffledByClass rot0 targets
        probs us).map List.length).sum ≤ y.length) ∧
    (numClients ≤ y.length →
      ∀ cl ∈ makeClientsFromXY y numClasses numClients shuffledByClass rot0
        targets probs us, cl ≠ []) := by
  have hpool : poolSum shuffledByClass = y.length :=
    (poolSum_forall₂_perm _ _ hsh).trans (poolSum_groupByClass y numClasses hy)
  have hlen : shuffledByClass.length = numClasses := by
    rw [hsh.length_eq]
    simp [groupByClass]
  constructor
  · simp only [makeClientsFromXY]
    by_cases hcase : numClients ≤ y.length
    · rw [if_pos hcase]
      have h1 := buildClients_conserve numClasses
        (reserveLoop numClasses numClients rot0 shuffledByClass []).1 targets probs
        (reserveLoop numClasses numClients rot0 shuffledByClass []).2 us
      have h2 := (reserveLoop_conserve numClasses numClients rot0
        shuffledByClass []).1
      simp only [List.map_nil, List.sum_nil, Nat.zero_add] at h2
      omega
    · rw [if_neg hcase]
      have h1 := buildClients_conserve numClasses
        (reserveScarce numClasses numClients y.length rot0 shuffledByClass []).1
        targets probs
        (reserveScarce numClasses numClients y.length rot0 shuffledByClass []).2 us
      have h2 := reserveScarce_conserve numClasses numClients y.length rot0
        shuffledByClass []
      simp only [List.map_nil, List.sum_nil, Nat.zero_add] at h2
      omega
  · intro htot cl hcl
    simp only [makeClientsFromXY] at hcl
    rw [if_pos htot] at hcl
    refine buildClients_nonempty numClasses _ targets probs _ us ?_ cl hcl
    refine reserveLoop_nonempty numClasses numClients rot0 shuffledByClass []
      hlen (by omega) ?_
    intro e he
    simp at he

/-- C4 witness: 3 examples over 2 classes split among 2 clients. -/
theorem makeClientsFromXY_sizes_witness :
    (((makeClientsFromXY [0, 1, 0] 2 2 (groupByClass [0, 1, 0] 2) 0 [2, 1]
        [[1/2, 1/2], [1/2, 1/2]] [1/2, 1/2, 1/2]).map List.length).sum ≤ 3) ∧
    (∀ cl ∈ makeClientsFromXY [0, 1, 0] 2 2 (groupByClass [0, 1, 0] 2) 0 [2, 1]
        [[1/2, 1/2], [1/2, 1/2]] [1/2, 1/2, 1/2], cl ≠ []) := by
  have h := makeClientsFromXY_sizes [0, 1, 0] 2 2 (groupByClass [0, 1, 0] 2) 0
    [2, 1] [[1/2, 1/2], [1/2, 1/2]] [1/2, 1/2, 1/2] (by decide)
    (forall₂_perm_refl _)
  exact ⟨h.1, h.2 (by decide)⟩

end FL
